import Mathlib

/-!
Verification of the docdeid annotation/redaction engine against its design
specification.  Documents and annotation texts are modelled as lists of
characters (`Chars`); Python slices `text[a:b]` (with `0 ≤ a ≤ b`) become
`(text.drop a).take (b - a)`; Python's stable `sorted` becomes
`List.insertionSort`; Python dicts keyed by strings become association lists
with leftmost-match lookup.  Fallible code returns `Except`.
-/

abbrev Chars := List Char

/-- Python slice `text[a:b]` for nonnegative bounds (clamping semantics). -/
def pySlice (t : Chars) (a b : Nat) : Chars := (t.drop a).take (b - a)

/-- The annotation value type: a matched span of the document text together
with a tag and a priority (`docdeid.annotation.Annotation`). -/
structure Annotation where
  text : Chars
  start_char : Nat
  end_char : Nat
  tag : Chars
  priority : Int := 0
  deriving DecidableEq, Repr

/-- Uppercasing, modelling Python `str.upper()` on the tag strings used here. -/
def charsUpper (s : Chars) : Chars := s.map Char.toUpper

/-- Decimal rendering of a natural number, as Python `f-string` interpolation. -/
def natChars (n : Nat) : Chars := (toString n).toList

/-- Decimal rendering of an integer, as Python `f-string` interpolation. -/
def intChars (i : Int) : Chars := (toString i).toList

/-- Boolean test that the half-open spans of two annotations share at least one
character position. -/
def spansOverlap (a b : Annotation) : Bool :=
  decide (max a.start_char b.start_char < min a.end_char b.end_char)

/-- Modelled from the spec: `AnnotationSet.has_overlap` (the class lives in
`docdeid/annotation.py`, which is not among the given sources) is "true iff any
two distinct annotations share at least one character position". -/
def hasOverlap : List Annotation → Bool
  | [] => false
  | a :: rest =>
    rest.any (fun b => decide (a ≠ b) && spansOverlap a b) || hasOverlap rest

/-- Lexicographic comparison of character lists, modelling Python string `<=`
as used by `sorted(..., key=attrgetter('tag'))`. -/
def charsLe : Chars → Chars → Bool
  | [], _ => true
  | _ :: _, [] => false
  | a :: as, b :: bs =>
    if a < b then true else if b < a then false else charsLe as bs

/-- Redactor that ignores its input entirely (`RedactAllText.redact`). -/
def RedactAllText.redact (open_char close_char : Chars)
    (_text : Chars) (_annos : List Annotation) : Chars :=
  open_char ++ "REDACTED".toList ++ close_char

/-- Group annotations by tag (`SimpleRedactor._group_by_tag`): stable-sort by
tag, then group adjacent annotations carrying an equal tag. -/
def SimpleRedactor.group_by_tag (annos : List Annotation) : List (List Annotation) :=
  (annos.insertionSort (fun a b => charsLe a.tag b.tag = true)).splitBy
    (fun a b => decide (a.tag = b.tag))

/-- Leftmost-match lookup in an association list (Python dict lookup, given
that updated keys are re-inserted in front of stale entries). -/
def lookupD (d : List (Chars × Nat)) (k : Chars) : Option Nat :=
  (d.find? (fun p => decide (p.1 = k))).map (fun p => p.2)

/-- Counter assignment inside one tag group: each not-yet-seen annotation text
receives counter `len(dict) + 1`, in list order. -/
def groupCounters (group : List Annotation) : List (Chars × Nat) :=
  group.foldl
    (fun d a =>
      if (lookupD d a.text).isSome then d else d ++ [(a.text, d.length + 1)])
    []

/-- The merged text-to-counter dict of `SimpleRedactor.redact`: every tag group
is sorted by ascending `end_char` and given fresh counters, and the per-group
dicts are merged into one dict keyed by annotation text alone, later groups
overwriting earlier ones (Python `dict |=`). -/
def annotationTextToCounter (annos : List Annotation) : List (Chars × Nat) :=
  (SimpleRedactor.group_by_tag annos).foldl
    (fun acc g =>
      groupCounters (g.insertionSort (fun a b => a.end_char ≤ b.end_char)) ++ acc)
    []

/-- The replacement string `{open}{TAG_UPPER}-{counter}{close}` assigned to an
annotation by `SimpleRedactor.redact`. -/
def replacementFor (open_char close_char : Chars)
    (counters : List (Chars × Nat)) (a : Annotation) : Chars :=
  open_char ++ charsUpper a.tag ++ ['-']
    ++ natChars ((lookupD counters a.text).getD 0) ++ close_char

/-- Substitution step (`SimpleRedactor._replace_annotations_in_text`): process
annotations by descending `end_char` and splice each replacement into the text
at `[start_char, end_char)`. -/
def SimpleRedactor.replace_annotations_in_text
    (text : Chars) (annos : List Annotation) (repl : Annotation → Chars) : Chars :=
  (annos.insertionSort (fun a b => b.end_char ≤ a.end_char)).foldl
    (fun t a => t.take a.start_char ++ repl a ++ t.drop a.end_char) text

/-- Main redaction routine (`SimpleRedactor.redact`): raises on overlapping
input when overlap checking is on, otherwise assigns counters and substitutes.
The overlap test `has_overlap` is modelled from the spec (see `hasOverlap`). -/
def SimpleRedactor.redact (open_char close_char : Chars) (check_overlap : Bool)
    (text : Chars) (annos : List Annotation) : Except String Chars :=
  if check_overlap && hasOverlap annos then
    Except.error "SimpleRedactor received input with overlapping annotations."
  else
    Except.ok
      (SimpleRedactor.replace_annotations_in_text text annos
        (replacementFor open_char close_char (annotationTextToCounter annos)))

/-- Reference rendering of an overlap-free redaction, following the spec: walk
the annotations left to right; keep the text between the previous position and
the next span unchanged, emit the span's replacement, and continue after the
span.  `renderFrom repl text pos l` renders the tail of the document from
position `pos`. -/
def renderFrom (repl : Annotation → Chars) (text : Chars) (pos : Nat) :
    List Annotation → Chars
  | [] => text.drop pos
  | a :: rest =>
    (text.drop pos).take (a.start_char - pos) ++ repl a
      ++ renderFrom repl text a.end_char rest

/-- A list of annotations laid out left to right starting at `pos`: each span
starts no earlier than the current position, is well formed, ends within the
document, and the remainder is laid out after it. -/
def ChainedFrom (textLen : Nat) : Nat → List Annotation → Prop
  | _, [] => True
  | pos, a :: rest =>
    pos ≤ a.start_char ∧ a.start_char ≤ a.end_char ∧ a.end_char ≤ textLen ∧
      ChainedFrom textLen a.end_char rest

/-- Modelled from the spec: the lookup trie (`docdeid/ds/lookup.py` is not
among the given sources).  A node owns a mapping from token string to child
node plus a terminal marker. -/
inductive LookupTrie where
  | node (terminal : Bool) (children : List (Chars × LookupTrie))

/-- Terminal marker of the root node of a trie. -/
def LookupTrie.terminal : LookupTrie → Bool
  | .node t _ => t

/-- Child lookup by token string. -/
def LookupTrie.child (s : Chars) : LookupTrie → Option LookupTrie
  | .node _ children => (children.find? (fun c => decide (c.1 = s))).map (fun c => c.2)

/-- A matching pipeline is an ordered list of string-to-string normalization
steps, applied in sequence. -/
def applyPipeline (pl : List (Chars → Chars)) (s : Chars) : Chars :=
  pl.foldl (fun acc f => f acc) s

/-- Modelled from the spec: `LookupTrie.add_item` applies the matching pipeline
to each element, then walks and extends the tree, marking the final node
terminal. -/
def LookupTrie.add_item (pl : List (Chars → Chars)) : LookupTrie → List Chars → LookupTrie
  | .node _ children, [] => .node true children
  | .node term children, s :: rest =>
    let key := applyPipeline pl s
    match children.find? (fun c => decide (c.1 = key)) with
    | some c =>
      .node term
        ((key, LookupTrie.add_item pl c.2 rest)
          :: children.filter (fun c => decide (¬ c.1 = key)))
    | none =>
      .node term
        ((key, LookupTrie.add_item pl (.node false []) rest) :: children)

/-- Modelled from the spec: the worker of `longest_matching_prefix` walks the
trie along the token texts, remembering the current depth at every terminal
node visited, and returns the best remembered depth when the walk stops. -/
def LookupTrie.lmpAux (pl : List (Chars → Chars)) :
    LookupTrie → List Chars → Nat → Option Nat → Option Nat
  | t, [], depth, best => if t.terminal then some depth else best
  | t, s :: rest, depth, best =>
    match t.child (applyPipeline pl s) with
    | none => if t.terminal then some depth else best
    | some c =>
      LookupTrie.lmpAux pl c rest (depth + 1)
        (if t.terminal then some depth else best)

/-- Modelled from the spec: `LookupTrie.longest_matching_prefix` walks from
`start_i`, remembers the depth of every terminal node visited, keeps extending
past non-terminal intermediate nodes, and returns the largest remembered depth
(or none if no terminal node was ever reached). -/
def LookupTrie.longest_matching_prefix (pl : List (Chars → Chars))
    (t : LookupTrie) (tokens_text : List Chars) (start_i : Nat) : Option Nat :=
  LookupTrie.lmpAux pl t (tokens_text.drop start_i) 0 none

/-- Collects the depths of all terminal nodes visited along the walk of the
trie over the given token texts; the reference reading of "largest depth at
which a terminal node was visited". -/
def terminalDepths (pl : List (Chars → Chars)) :
    LookupTrie → List Chars → Nat → List Nat
  | t, [], depth => if t.terminal then [depth] else []
  | t, s :: rest, depth =>
    (if t.terminal then [depth] else []) ++
      match t.child (applyPipeline pl s) with
      | none => []
      | some c => terminalDepths pl c rest (depth + 1)

/-- A token of the external tokenizer collaborator: a span of the document
text with character offsets. -/
structure Token where
  text : Chars
  start_char : Nat
  end_char : Nat
  deriving DecidableEq, Repr

/-- The default token used to model Python list indexing at indices that the
proofs show are always in bounds. -/
def dummyToken : Token := { text := [], start_char := 0, end_char := 0 }

/-- Main loop of `MultiTokenLookupAnnotator.annotate`: for each start position
at least `min_i`, query the trie for the longest matching prefix; on a match of
length `len` over tokens `i .. i+len-1`, emit an annotation spanning from the
start of token `i` to the end of token `i+len-1`, and (unless `overlapping`)
skip all start positions before `i + len`. -/
def annotateLoop (pl : List (Chars → Chars)) (t : LookupTrie) (docText : Chars)
    (tokens : List Token) (tag : Chars) (prio : Int) (overlapping : Bool) :
    List Nat → Nat → List Annotation
  | [], _ => []
  | i :: rest, min_i =>
    if i < min_i then
      annotateLoop pl t docText tokens tag prio overlapping rest min_i
    else
      match LookupTrie.longest_matching_prefix pl t (tokens.map Token.text) i with
      | none => annotateLoop pl t docText tokens tag prio overlapping rest min_i
      | some len =>
        { text := pySlice docText (tokens.getD i dummyToken).start_char
            (tokens.getD (i + len - 1) dummyToken).end_char,
          start_char := (tokens.getD i dummyToken).start_char,
          end_char := (tokens.getD (i + len - 1) dummyToken).end_char,
          tag := tag, priority := prio } ::
          annotateLoop pl t docText tokens tag prio overlapping rest
            (if overlapping then min_i else i + len)

/-- Annotation pass of `MultiTokenLookupAnnotator.annotate`; the sorted start
positions coming from the external token lookup are a parameter. -/
def MultiTokenLookupAnnotator.annotate (pl : List (Chars → Chars)) (t : LookupTrie)
    (docText : Chars) (tokens : List Token) (startPositions : List Nat)
    (overlapping : Bool) (tag : Chars) (prio : Int) : List Annotation :=
  annotateLoop pl t docText tokens tag prio overlapping startPositions 0

/-- One regular-expression match after capturing-group extraction: the matched
text of the group together with its span, as delivered by the external `re`
collaborator. -/
structure RMatch where
  mtext : Chars
  mstart : Nat
  mend : Nat
  deriving DecidableEq, Repr

/-- Annotation pass of `RegexpAnnotator.annotate`: if the pre-token check asks
to skip the document, return nothing; otherwise keep the rmatches accepted by
`_validate_match` and wrap each one's group text and span in an annotation. -/
def RegexpAnnotator.annotate (validate : RMatch → Bool) (skipDoc : Bool)
    (rmatches : List RMatch) (tag : Chars) (prio : Int) : List Annotation :=
  if skipDoc then []
  else
    (rmatches.filter validate).map fun m =>
      { text := m.mtext, start_char := m.mstart, end_char := m.mend,
        tag := tag, priority := prio }

/-- Annotation pass of `TokenPatternAnnotator.annotate`: if the document
precondition fails, return nothing; otherwise, for every token passing the
token precondition whose pattern match yields a start and end token, emit an
annotation slicing the document text between them. -/
def TokenPatternAnnotator.annotate (docPrecondition : Bool)
    (tokenPrecondition : Token → Bool) (pmatch : Token → Option (Token × Token))
    (docText : Chars) (tokens : List Token) (tag : Chars) (prio : Int) :
    List Annotation :=
  if ¬ docPrecondition then []
  else
    tokens.foldr
      (fun token acc =>
        if ¬ tokenPrecondition token then acc
        else
          match pmatch token with
          | none => acc
          | some (startTok, endTok) =>
            { text := pySlice docText startTok.start_char endTok.end_char,
              start_char := startTok.start_char, end_char := endTok.end_char,
              tag := tag, priority := prio } :: acc)
      []

/-- Span length of an annotation, the sort key of `annotate_doc`. -/
def annoLen (a : Annotation) : Nat := a.end_char - a.start_char

/-- The annotations of the document sorted from shortest span to longest
(`annos_from_shortest` in `annotate_doc`), stably. -/
def annosFromShortest (annos : List Annotation) : List Annotation :=
  annos.insertionSort (fun a b => annoLen a ≤ annoLen b)

/-- The value of `idx_to_anno_starts[idx]` in `annotate_doc`: all annotations
starting at `idx`, in shortest-first order. -/
def startsAt (annos : List Annotation) (idx : Nat) : List Annotation :=
  (annosFromShortest annos).filter (fun a => decide (a.start_char = idx))

/-- The value of `idx_to_anno_ends[idx]` in `annotate_doc`: all annotations
ending at `idx`, in shortest-first order. -/
def endsAt (annos : List Annotation) (idx : Nat) : List Annotation :=
  (annosFromShortest annos).filter (fun a => decide (a.end_char = idx))

/-- The sorted set of all span boundaries (`markup_indices`). -/
def markupIndices (annos : List Annotation) : List Nat :=
  ((annos.map Annotation.start_char ++ annos.map Annotation.end_char).dedup).insertionSort
    (fun a b => a ≤ b)

/-- The debug priority suffix of a markup tag: `xN` when debug mode is on and
the priority is non-zero (Python truthiness), nothing otherwise. -/
def prioSuffix (debug : Bool) (a : Annotation) : Chars :=
  if debug && decide (a.priority ≠ 0) then 'x' :: intChars a.priority else []

/-- Closing markup tag `</TAG{prio}>` emitted by `annotate_doc`. -/
def closeMarker (debug : Bool) (a : Annotation) : Chars :=
  ['<', '/'] ++ charsUpper a.tag ++ prioSuffix debug a ++ ['>']

/-- Opening markup tag `<TAG{prio}>` emitted by `annotate_doc`. -/
def openMarker (debug : Bool) (a : Annotation) : Chars :=
  ['<'] ++ charsUpper a.tag ++ prioSuffix debug a ++ ['>']

/-- All markers emitted at one boundary index: closing tags of the annotations
ending there (in dict order), then opening tags of the annotations starting
there in reversed dict order. -/
def markersAt (debug : Bool) (annos : List Annotation) (idx : Nat) : List Chars :=
  (endsAt annos idx).map (closeMarker debug)
    ++ ((startsAt annos idx).reverse).map (openMarker debug)

/-- Chunk loop of `annotate_doc`: at every boundary index emit the text read
since the previous boundary followed by that boundary's markers, and finally
the text after the last boundary. -/
def chunksLoop (debug : Bool) (text : Chars) (annos : List Annotation) :
    Nat → List Nat → List Chars
  | last, [] => [text.drop last]
  | last, idx :: rest =>
    (pySlice text last idx :: markersAt debug annos idx)
      ++ chunksLoop debug text annos idx rest

/-- Inline markup renderer (`annotate_doc`). -/
def annotate_doc (debug : Bool) (text : Chars) (annos : List Annotation) : Chars :=
  (chunksLoop debug text annos 0 (markupIndices annos)).flatten

/-- The text chunks of `annotate_doc` alone: the pieces of the document text
between consecutive boundary indices. -/
def textPieces (text : Chars) : Nat → List Nat → List Chars
  | last, [] => [text.drop last]
  | last, idx :: rest => pySlice text last idx :: textPieces text idx rest

/-- Interleaving of text pieces with the marker runs corresponding to each
boundary index; used to state that deleting the markers recovers the text. -/
def interleaveChunks : List Chars → List (List Chars) → Chars
  | [], _ => []
  | p :: ps, [] => p ++ interleaveChunks ps []
  | p :: ps, m :: ms => p ++ m.flatten ++ interleaveChunks ps ms

/-- Python `str.encode("ascii", errors="ignore")` followed by decoding: keeps
exactly the characters with code point below 128. -/
def asciiEncodeIgnore (s : Chars) : Chars :=
  s.filter (fun c => decide (c.toNat < 128))

/-- Predicate that a string consists only of ASCII characters. -/
def allAscii (s : Chars) : Prop := ∀ c ∈ s, c.toNat < 128

/-- The function `remove_nonascii` of `docdeid.str.utils`: drop all non-ASCII
characters, then normalize the result with NFKD.  The NFKD normalization of
the external `unicodedata` collaborator is a parameter. -/
def remove_nonascii (nfkd : Chars → Chars) (text : Chars) : Chars :=
  nfkd (asciiEncodeIgnore text)

/-- The function `replace_nonascii` of `docdeid.str.utils`: normalize with NFD
(external collaborator, a parameter), then drop all non-ASCII characters. -/
def replace_nonascii (nfd : Chars → Chars) (text : Chars) : Chars :=
  asciiEncodeIgnore (nfd text)

/-- The `RemoveNonAsciiCharacters` string modifier delegates to
`remove_nonascii`. -/
def RemoveNonAsciiCharacters.process (nfkd : Chars → Chars) (item : Chars) : Chars :=
  remove_nonascii nfkd item

/-- The `ReplaceNonAsciiCharacters` string modifier delegates to
`replace_nonascii`. -/
def ReplaceNonAsciiCharacters.process (nfd : Chars → Chars) (item : Chars) : Chars :=
  replace_nonascii nfd item

/-- Non-overlap of two annotation spans: one ends before the other starts. -/
def SpansDisjoint (a b : Annotation) : Prop :=
  a.end_char ≤ b.start_char ∨ b.end_char ≤ a.start_char

instance : DecidableRel SpansDisjoint := fun a b =>
  if h : a.end_char ≤ b.start_char ∨ b.end_char ≤ a.start_char
  then .isTrue h else .isFalse h

/-- Largest element of a list of depths, if any. -/
def listMax? : List Nat → Option Nat
  | [] => none
  | x :: xs =>
    match listMax? xs with
    | none => some x
    | some m => some (max x m)

/-- The trie of the spec's longest-match example, built by inserting the token
sequences of "New York" and "New York City" with an empty pipeline. -/
def newYorkTrie : LookupTrie :=
  LookupTrie.add_item []
    (LookupTrie.add_item [] (.node false []) ["New".toList, "York".toList])
    ["New".toList, "York".toList, "City".toList]

/-! Theorems. -/

theorem listMax?_mem : ∀ (l : List Nat) (m : Nat), listMax? l = some m → m ∈ l := by
  intro l
  induction l with
  | nil => intro m h; simp [listMax?] at h
  | cons x xs ih =>
    intro m h
    unfold listMax? at h
    cases hx : listMax? xs with
    | none =>
      rw [hx] at h
      cases h
      exact List.mem_cons_self x xs
    | some m2 =>
      rw [hx] at h
      cases h
      rcases Nat.le_total x m2 with hle | hle
      · rw [Nat.max_eq_right hle]
        exact List.mem_cons_of_mem x (ih m2 hx)
      · rw [Nat.max_eq_left hle]
        exact List.mem_cons_self x xs

theorem listMax?_none_iff : ∀ l : List Nat, listMax? l = none ↔ l = [] := by
  intro l
  cases l with
  | nil => simp [listMax?]
  | cons x xs =>
    simp only [listMax?]
    cases listMax? xs <;> simp

theorem listMax?_le : ∀ (l : List Nat) (m : Nat), listMax? l = some m → ∀ y ∈ l, y ≤ m := by
  intro l
  induction l with
  | nil => intro m h; simp [listMax?] at h
  | cons x xs ih =>
    intro m h y hy
    unfold listMax? at h
    cases hx : listMax? xs with
    | none =>
      rw [hx] at h
      cases h
      rcases List.mem_cons.mp hy with rfl | hy2
      · exact Nat.le_refl y
      · rw [(listMax?_none_iff xs).mp hx] at hy2
        exact absurd hy2 (List.not_mem_nil y)
    | some m2 =>
      rw [hx] at h
      cases h
      rcases List.mem_cons.mp hy with rfl | hy2
      · exact Nat.le_max_left y m2
      · exact Nat.le_trans (ih m2 hx y hy2) (Nat.le_max_right x m2)

theorem spansOverlap_comm (a b : Annotation) : spansOverlap a b = spansOverlap b a := by
  simp only [spansOverlap, decide_eq_decide]
  rw [Nat.max_comm, Nat.min_comm]

theorem spansOverlap_eq_true_iff (a b : Annotation) :
    spansOverlap a b = true ↔
      ∃ p, a.start_char ≤ p ∧ p < a.end_char ∧ b.start_char ≤ p ∧ p < b.end_char := by
  simp only [spansOverlap, decide_eq_true_eq, Nat.max_lt, Nat.lt_min]
  constructor
  · intro h
    rcases Nat.le_total a.start_char b.start_char with hle | hle
    · exact ⟨b.start_char, by omega, by omega, by omega, by omega⟩
    · exact ⟨a.start_char, by omega, by omega, by omega, by omega⟩
  · rintro ⟨p, h1, h2, h3, h4⟩
    omega

theorem hasOverlap_eq_true_iff (annos : List Annotation) :
    hasOverlap annos = true ↔
      ∃ a ∈ annos, ∃ b ∈ annos, a ≠ b ∧ spansOverlap a b = true := by
  induction annos with
  | nil => simp [hasOverlap]
  | cons a rest ih =>
    simp only [hasOverlap, Bool.or_eq_true, List.any_eq_true, Bool.and_eq_true,
      decide_eq_true_eq, ih]
    constructor
    · rintro (⟨b, hb, hne, hov⟩ | ⟨x, hx, y, hy, hne, hov⟩)
      · exact ⟨a, List.mem_cons_self a rest, b, List.mem_cons_of_mem a hb, hne, hov⟩
      · exact ⟨x, List.mem_cons_of_mem a hx, y, List.mem_cons_of_mem a hy, hne, hov⟩
    · rintro ⟨x, hx, y, hy, hne, hov⟩
      rcases List.mem_cons.mp hx with hxa | hxr
      · rcases List.mem_cons.mp hy with hya | hyr
        · exact absurd (hxa.trans hya.symm) hne
        · subst hxa
          exact Or.inl ⟨y, hyr, hne, hov⟩
      · rcases List.mem_cons.mp hy with hya | hyr
        · subst hya
          refine Or.inl ⟨x, hxr, fun h => hne h.symm, ?_⟩
          rw [spansOverlap_comm]
          exact hov
        · exact Or.inr ⟨x, hxr, y, hyr, hne, hov⟩

/-- C2: with overlap checking on, `SimpleRedactor.redact` fails (returning an
error instead of a redacted text) exactly when two distinct annotations of the
input share at least one character position, and returns normally otherwise. -/
theorem simpleRedactor_error_iff_overlap (oc cc text : Chars) (annos : List Annotation) :
    (SimpleRedactor.redact oc cc true text annos).isOk = false ↔
      ∃ a ∈ annos, ∃ b ∈ annos, a ≠ b ∧
        ∃ p, a.start_char ≤ p ∧ p < a.end_char ∧ b.start_char ≤ p ∧ p < b.end_char := by
  have h1 : (SimpleRedactor.redact oc cc true text annos).isOk = false ↔
      hasOverlap annos = true := by
    unfold SimpleRedactor.redact
    cases h : hasOverlap annos <;> simp [h, Except.isOk, Except.toBool]
  rw [h1, hasOverlap_eq_true_iff]
  simp only [spansOverlap_eq_true_iff]

/-- C6: `RedactAllText.redact` returns exactly `{open}REDACTED{close}` for
every input text and annotation set, independently of both. -/
theorem redactAllText_constant (oc cc : Chars) :
    (∀ text annos, RedactAllText.redact oc cc text annos = oc ++ "REDACTED".toList ++ cc) ∧
      ∀ t1 a1 t2 a2, RedactAllText.redact oc cc t1 a1 = RedactAllText.redact oc cc t2 a2 :=
  ⟨fun _ _ => rfl, fun _ _ _ _ => rfl⟩

/-- C1 (code evaluation at the failing input): with annotations
`(tag "a", text "X")`, `(tag "b", text "Y")`, `(tag "b", text "X")` on
`"X Y X"`, the tag-`a` annotation is replaced by `[A-2]` rather than `[A-1]`:
the per-tag counter dicts are merged into one dict keyed by text alone, so tag
`b`'s counter 2 for text `"X"` overwrites tag `a`'s counter 1. -/
theorem simpleRedactor_counter_leaks_across_tags :
    SimpleRedactor.redact "[".toList "]".toList true "X Y X".toList
        [ { text := "X".toList, start_char := 0, end_char := 1, tag := "a".toList },
          { text := "Y".toList, start_char := 2, end_char := 3, tag := "b".toList },
          { text := "X".toList, start_char := 4, end_char := 5, tag := "b".toList } ]
        = Except.ok "[A-2] [B-1] [B-2]".toList ∧
      (SimpleRedactor.redact "[".toList "]".toList true "X Y X".toList
        [ { text := "X".toList, start_char := 0, end_char := 1, tag := "a".toList },
          { text := "Y".toList, start_char := 2, end_char := 3, tag := "b".toList },
          { text := "X".toList, start_char := 4, end_char := 5, tag := "b".toList } ]).toOption
        ≠ some "[A-1] [B-1] [B-2]".toList :=
  ⟨rfl, by decide⟩

theorem listMax?_eq_some_of :
    ∀ (l : List Nat) (m : Nat), m ∈ l → (∀ y ∈ l, y ≤ m) → listMax? l = some m := by
  intro l
  induction l with
  | nil => intro m hm; exact absurd hm (List.not_mem_nil m)
  | cons x xs ih =>
    intro m hm hb
    unfold listMax?
    cases hx : listMax? xs with
    | none =>
      rw [(listMax?_none_iff xs).mp hx] at hm
      rcases List.mem_cons.mp hm with rfl | hm2
      · rfl
      · exact absurd hm2 (List.not_mem_nil m)
    | some m2 =>
      have hm2x : m2 ∈ xs := listMax?_mem xs m2 hx
      have hm2m : m2 ≤ m := hb m2 (List.mem_cons_of_mem x hm2x)
      have hxm : x ≤ m := hb x (List.mem_cons_self x xs)
      rcases List.mem_cons.mp hm with rfl | hmxs
      · simp [Nat.max_eq_left hm2m]
      · have hmm2 : m ≤ m2 := listMax?_le xs m2 hx m hmxs
        have : m = m2 := Nat.le_antisymm hmm2 hm2m
        subst this
        simp [Nat.max_eq_right hxm]

theorem terminalDepths_ge (pl : List (Chars → Chars)) :
    ∀ (toks : List Chars) (t : LookupTrie) (depth : Nat),
      ∀ x ∈ terminalDepths pl t toks depth, depth ≤ x := by
  intro toks
  induction toks with
  | nil =>
    intro t depth x hx
    unfold terminalDepths at hx
    cases ht : t.terminal <;> rw [ht] at hx <;> simp at hx
    omega
  | cons s rest ih =>
    intro t depth x hx
    unfold terminalDepths at hx
    rcases List.mem_append.mp hx with h | h
    · cases ht : t.terminal <;> rw [ht] at h <;> simp at h
      omega
    · cases hc : t.child (applyPipeline pl s) with
      | none =>
        rw [hc] at h
        exact absurd h (List.not_mem_nil x)
      | some c =>
        rw [hc] at h
        exact Nat.le_trans (Nat.le_succ depth) (ih c (depth + 1) x h)

theorem lmpAux_eq_listMax? (pl : List (Chars → Chars)) :
    ∀ (toks : List Chars) (t : LookupTrie) (depth : Nat) (best : Option Nat),
      LookupTrie.lmpAux pl t toks depth best
        = (listMax? (terminalDepths pl t toks depth)).elim best some := by
  intro toks
  induction toks with
  | nil =>
    intro t depth best
    unfold LookupTrie.lmpAux terminalDepths
    cases ht : t.terminal <;> simp [listMax?]
  | cons s rest ih =>
    intro t depth best
    unfold LookupTrie.lmpAux terminalDepths
    cases hc : t.child (applyPipeline pl s) with
    | none =>
      cases ht : t.terminal <;> simp [ht, listMax?]
    | some c =>
      simp only [ih]
      cases ht : t.terminal
      · simp [ht]
      · simp only [ht, if_true]
        cases hm : listMax? (terminalDepths pl c rest (depth + 1)) with
        | none => simp [listMax?, hm]
        | some m =>
          have hmem : m ∈ terminalDepths pl c rest (depth + 1) :=
            listMax?_mem _ m hm
          have hge : depth + 1 ≤ m := terminalDepths_ge pl rest c (depth + 1) m hmem
          simp [listMax?, hm, Nat.max_eq_right (Nat.le_of_succ_le hge)]

theorem longest_matching_prefix_eq_listMax?
    (pl : List (Chars → Chars)) (t : LookupTrie) (toks : List Chars) (i : Nat) :
    LookupTrie.longest_matching_prefix pl t toks i
      = listMax? (terminalDepths pl t (toks.drop i) 0) := by
  unfold LookupTrie.longest_matching_prefix
  rw [lmpAux_eq_listMax?]
  cases listMax? (terminalDepths pl t (toks.drop i) 0) <;> rfl

/-- C3: on the trie of {"New York", "New York City"},
`longest_matching_prefix` over ["New","York","City","Hall"] from index 0
returns length 3 and over ["New","York","Hall"] returns length 2; in general
it returns the largest depth at which a terminal node was visited during the
walk, or none when no terminal node was ever reached. -/
theorem trie_longest_match :
    ( LookupTrie.longest_matching_prefix [] newYorkTrie
        ["New".toList, "York".toList, "City".toList, "Hall".toList] 0 = some 3) ∧
      ( LookupTrie.longest_matching_prefix [] newYorkTrie
        ["New".toList, "York".toList, "Hall".toList] 0 = some 2) ∧
      (∀ pl t toks i m,
        ( LookupTrie.longest_matching_prefix pl t toks i = some m ↔
          m ∈ terminalDepths pl t (toks.drop i) 0 ∧
            ∀ y ∈ terminalDepths pl t (toks.drop i) 0, y ≤ m)) ∧
      ∀ pl t toks i,
        ( LookupTrie.longest_matching_prefix pl t toks i = none ↔
          terminalDepths pl t (toks.drop i) 0 = []) := by
  refine ⟨by decide, by decide, ?_, ?_⟩
  · intro pl t toks i m
    rw [longest_matching_prefix_eq_listMax?]
    constructor
    · intro h
      exact ⟨listMax?_mem _ m h, listMax?_le _ m h⟩
    · rintro ⟨hmem, hb⟩
      exact listMax?_eq_some_of _ m hmem hb
  · intro pl t toks i
    rw [longest_matching_prefix_eq_listMax?]
    exact listMax?_none_iff _

theorem asciiEncodeIgnore_ascii (s : Chars) : allAscii (asciiEncodeIgnore s) := by
  intro c hc
  have h := List.of_mem_filter hc
  simpa using h

/-- C10: `remove_nonascii` and `replace_nonascii` (and hence the
`RemoveNonAsciiCharacters` and `ReplaceNonAsciiCharacters` string modifiers)
return ASCII-only strings for every input, given that the external NFKD
normalization maps ASCII-only strings to ASCII-only strings. -/
theorem nonascii_outputs_ascii (nfkd nfd : Chars → Chars) (text : Chars)
    (hnfkd : ∀ s, allAscii s → allAscii (nfkd s)) :
    allAscii (remove_nonascii nfkd text) ∧ allAscii (replace_nonascii nfd text) ∧
      allAscii (RemoveNonAsciiCharacters.process nfkd text) ∧
      allAscii (ReplaceNonAsciiCharacters.process nfd text) := by
  have h1 : allAscii (remove_nonascii nfkd text) := hnfkd _ (asciiEncodeIgnore_ascii text)
  have h2 : allAscii (replace_nonascii nfd text) := asciiEncodeIgnore_ascii _
  exact ⟨h1, h2, h1, h2⟩

/-- Witness for C10 at a concrete accented input and the identity
normalization (which trivially preserves ASCII-only strings). -/
theorem nonascii_outputs_ascii_witness :
    allAscii (remove_nonascii id "Renée".toList) ∧
      allAscii (replace_nonascii id "Renée".toList) ∧
      allAscii (RemoveNonAsciiCharacters.process id "Renée".toList) ∧
      allAscii (ReplaceNonAsciiCharacters.process id "Renée".toList) :=
  nonascii_outputs_ascii id id "Renée".toList (fun _ h => h)

theorem annotateLoop_slice (pl : List (Chars → Chars)) (t : LookupTrie)
    (docText : Chars) (tokens : List Token) (tag : Chars) (prio : Int)
    (ov : Bool) :
    ∀ (positions : List Nat) (min_i : Nat),
      ∀ a ∈ annotateLoop pl t docText tokens tag prio ov positions min_i,
        a.text = pySlice docText a.start_char a.end_char := by
  intro positions
  induction positions with
  | nil =>
    intro min_i a ha
    simp [annotateLoop] at ha
  | cons i rest ih =>
    intro min_i a ha
    unfold annotateLoop at ha
    by_cases hlt : i < min_i
    · rw [if_pos hlt] at ha
      exact ih _ a ha
    · rw [if_neg hlt] at ha
      cases hm : LookupTrie.longest_matching_prefix pl t (tokens.map Token.text) i with
      | none =>
        rw [hm] at ha
        exact ih _ a ha
      | some len =>
        rw [hm] at ha
        rcases List.mem_cons.mp ha with rfl | ha2
        · rfl
        · exact ih _ a ha2

theorem tokenPattern_foldr_slice (tokenPrecondition : Token → Bool)
    (pmatch : Token → Option (Token × Token)) (docText : Chars)
    (tag : Chars) (prio : Int) :
    ∀ tokens : List Token,
      ∀ a ∈ tokens.foldr
        (fun token acc =>
          if ¬ tokenPrecondition token then acc
          else
            match pmatch token with
            | none => acc
            | some (startTok, endTok) =>
              ({ text := pySlice docText startTok.start_char endTok.end_char,
                 start_char := startTok.start_char, end_char := endTok.end_char,
                 tag := tag, priority := prio } : Annotation) :: acc)
        [],
        a.text = pySlice docText a.start_char a.end_char := by
  intro tokens
  induction tokens with
  | nil =>
    intro a ha
    exact absurd ha (List.not_mem_nil a)
  | cons token rest ih =>
    intro a ha
    rw [List.foldr_cons] at ha
    by_cases hp : tokenPrecondition token
    · rw [if_neg (by simp [hp])] at ha
      cases hm : pmatch token with
      | none =>
        rw [hm] at ha
        exact ih a ha
      | some pair =>
        rw [hm] at ha
        rcases List.mem_cons.mp ha with heq | ha2
        · subst heq
          rfl
        · exact ih a ha2
    · rw [if_pos (by simp [hp])] at ha
      exact ih a ha

/-- C5: every annotation emitted by the span-slicing annotators (multi-token
lookup, regexp with the library guarantee that a match group's text is the
slice of the document at its span, and token pattern) satisfies
`text == original_text[start_char:end_char]`. -/
theorem annotators_slice_invariant :
    (∀ pl t docText tokens startPositions overlapping tag prio,
      ∀ a ∈ MultiTokenLookupAnnotator.annotate pl t docText tokens startPositions
          overlapping tag prio,
        a.text = pySlice docText a.start_char a.end_char) ∧
      (∀ validate skipDoc rmatches tag prio (docText : Chars),
        (∀ m ∈ rmatches, m.mtext = pySlice docText m.mstart m.mend) →
        ∀ a ∈ RegexpAnnotator.annotate validate skipDoc rmatches tag prio,
          a.text = pySlice docText a.start_char a.end_char) ∧
      ∀ docPrecondition tokenPrecondition pmatch docText tokens tag prio,
        ∀ a ∈ TokenPatternAnnotator.annotate docPrecondition tokenPrecondition
            pmatch docText tokens tag prio,
          a.text = pySlice docText a.start_char a.end_char := by
  refine ⟨?_, ?_, ?_⟩
  · intro pl t docText tokens startPositions overlapping tag prio a ha
    exact annotateLoop_slice pl t docText tokens tag prio overlapping
      startPositions 0 a ha
  · intro validate skipDoc rmatches tag prio docText hre a ha
    unfold RegexpAnnotator.annotate at ha
    by_cases hs : skipDoc
    · rw [if_pos hs] at ha
      exact absurd ha (List.not_mem_nil a)
    · rw [if_neg hs] at ha
      rcases List.mem_map.mp ha with ⟨m, hm, rfl⟩
      have hmm : m ∈ rmatches := List.mem_of_mem_filter hm
      exact hre m hmm
  · intro docPrecondition tokenPrecondition pmatch docText tokens tag prio a ha
    unfold TokenPatternAnnotator.annotate at ha
    by_cases hd : docPrecondition
    · rw [if_neg (by simp [hd])] at ha
      exact tokenPattern_foldr_slice tokenPrecondition pmatch docText tag prio
        tokens a ha
    · rw [if_pos (by simp [hd])] at ha
      exact absurd ha (List.not_mem_nil a)

/-- Witness for C5 at concrete inputs: a one-match regexp run on document
"abc", and concrete runs of the other two annotators. -/
theorem annotators_slice_invariant_witness :
    ({ text := "ab".toList, start_char := 0, end_char := 2, tag := "t".toList,
        priority := 0 } : Annotation).text = pySlice "abc".toList 0 2 :=
  annotators_slice_invariant.2.1 (fun _ => true) false
    [{ mtext := "ab".toList, mstart := 0, mend := 2 }] "t".toList 0
    "abc".toList (by decide)
    { text := "ab".toList, start_char := 0, end_char := 2, tag := "t".toList,
      priority := 0 }
    (by decide)

theorem terminalDepths_le (pl : List (Chars → Chars)) :
    ∀ (toks : List Chars) (t : LookupTrie) (depth : Nat),
      ∀ x ∈ terminalDepths pl t toks depth, x ≤ depth + toks.length := by
  intro toks
  induction toks with
  | nil =>
    intro t depth x hx
    unfold terminalDepths at hx
    cases ht : t.terminal <;> rw [ht] at hx <;> simp at hx
    omega
  | cons s rest ih =>
    intro t depth x hx
    unfold terminalDepths at hx
    rcases List.mem_append.mp hx with h | h
    · cases ht : t.terminal <;> rw [ht] at h <;> simp at h
      simp [h]
    · cases hc : t.child (applyPipeline pl s) with
      | none =>
        rw [hc] at h
        exact absurd h (List.not_mem_nil x)
      | some c =>
        rw [hc] at h
        have := ih c (depth + 1) x h
        simp only [List.length_cons]
        omega

theorem terminalDepths_pos (pl : List (Chars → Chars))
    (toks : List Chars) (t : LookupTrie) (hroot : t.terminal = false) :
    ∀ x ∈ terminalDepths pl t toks 0, 1 ≤ x := by
  intro x hx
  cases toks with
  | nil =>
    unfold terminalDepths at hx
    rw [hroot] at hx
    exact absurd hx (List.not_mem_nil x)
  | cons s rest =>
    unfold terminalDepths at hx
    rw [hroot] at hx
    simp only [Bool.false_eq_true, if_false, List.nil_append] at hx
    cases hc : t.child (applyPipeline pl s) with
    | none =>
      rw [hc] at hx
      exact absurd hx (List.not_mem_nil x)
    | some c =>
      rw [hc] at hx
      exact terminalDepths_ge pl rest c 1 x hx

theorem longest_matching_prefix_bounds (pl : List (Chars → Chars))
    (t : LookupTrie) (toks : List Chars) (i len : Nat)
    (hroot : t.terminal = false)
    (h : LookupTrie.longest_matching_prefix pl t toks i = some len) :
    1 ≤ len ∧ i + len ≤ toks.length := by
  rw [longest_matching_prefix_eq_listMax?] at h
  have hmem := listMax?_mem _ len h
  have h1 : 1 ≤ len := terminalDepths_pos pl (toks.drop i) t hroot len hmem
  have h2 : len ≤ 0 + (toks.drop i).length :=
    terminalDepths_le pl (toks.drop i) t 0 len hmem
  rw [List.length_drop] at h2
  exact ⟨h1, by omega⟩

theorem token_pairwise_le (tokens : List Token)
    (htok : List.Pairwise (fun a b => a.end_char ≤ b.start_char) tokens)
    (m n : Nat) (hmn : m < n) (hn : n < tokens.length) :
    (tokens.getD m dummyToken).end_char ≤ (tokens.getD n dummyToken).start_char := by
  have hm : m < tokens.length := Nat.lt_trans hmn hn
  have hg := List.pairwise_iff_get.mp htok ⟨m, hm⟩ ⟨n, hn⟩ hmn
  rw [List.getD_eq_getElem _ _ hm, List.getD_eq_getElem _ _ hn]
  simpa [List.get_eq_getElem] using hg

theorem annotateLoop_disjoint (pl : List (Chars → Chars)) (t : LookupTrie)
    (docText : Chars) (tokens : List Token) (tag : Chars) (prio : Int)
    (htok : List.Pairwise (fun a b => a.end_char ≤ b.start_char) tokens)
    (hroot : t.terminal = false) :
    ∀ (positions : List Nat) (min_i : Nat),
      List.Pairwise (fun a b => a.end_char ≤ b.start_char)
          (annotateLoop pl t docText tokens tag prio false positions min_i) ∧
        ∀ a ∈ annotateLoop pl t docText tokens tag prio false positions min_i,
          ∃ j, min_i ≤ j ∧ j < tokens.length ∧
            a.start_char = (tokens.getD j dummyToken).start_char := by
  intro positions
  induction positions with
  | nil =>
    intro min_i
    constructor
    · simp [annotateLoop]
    · intro a ha
      simp [annotateLoop] at ha
  | cons i rest ih =>
    intro min_i
    unfold annotateLoop
    by_cases hlt : i < min_i
    · rw [if_pos hlt]
      exact ih min_i
    · rw [if_neg hlt]
      cases hm : LookupTrie.longest_matching_prefix pl t (tokens.map Token.text) i with
      | none => exact ih min_i
      | some len =>
        have hb := longest_matching_prefix_bounds pl t (tokens.map Token.text)
          i len hroot hm
        rw [List.length_map] at hb
        have hik : i + len ≤ tokens.length := hb.2
        have hlen : 1 ≤ len := hb.1
        rcases ih (i + len) with ⟨hpair, hmem⟩
        constructor
        · refine List.Pairwise.cons ?_ hpair
          intro b hbmem
          rcases hmem b hbmem with ⟨j, hj1, hj2, hj3⟩
          rw [hj3]
          exact token_pairwise_le tokens htok (i + len - 1) j (by omega) hj2
        · intro a ha
          rcases List.mem_cons.mp ha with heq | ha2
          · subst heq
            exact ⟨i, Nat.le_of_not_lt hlt, by omega, rfl⟩
          · rcases hmem a ha2 with ⟨j, hj1, hj2, hj3⟩
            exact ⟨j, by omega, hj2, hj3⟩

/-- C9: over a token sequence that is ordered by position with pairwise
non-overlapping token spans, `MultiTokenLookupAnnotator.annotate` with
`overlapping = False` (and a trie whose root is not terminal, which holds for
every trie the annotator builds, since it only inserts non-empty token
sequences) yields annotations with pairwise non-overlapping character spans. -/
theorem multiTokenLookup_nonoverlapping (pl : List (Chars → Chars))
    (t : LookupTrie) (docText : Chars) (tokens : List Token)
    (startPositions : List Nat) (tag : Chars) (prio : Int)
    (htok : List.Pairwise (fun a b => a.end_char ≤ b.start_char) tokens)
    (hroot : t.terminal = false) :
    List.Pairwise SpansDisjoint
      (MultiTokenLookupAnnotator.annotate pl t docText tokens startPositions
        false tag prio) := by
  have h := (annotateLoop_disjoint pl t docText tokens tag prio htok hroot
    startPositions 0).1
  exact h.imp (fun hab => Or.inl hab)

/-- Witness for C9 on the concrete document "New York City Hall", its four
tokens, and the trie of {"New York", "New York City"}. -/
theorem multiTokenLookup_nonoverlapping_witness :
    List.Pairwise SpansDisjoint
      (MultiTokenLookupAnnotator.annotate [] newYorkTrie
        "New York City Hall".toList
        [ { text := "New".toList, start_char := 0, end_char := 3 },
          { text := "York".toList, start_char := 4, end_char := 8 },
          { text := "City".toList, start_char := 9, end_char := 13 },
          { text := "Hall".toList, start_char := 14, end_char := 18 } ]
        [0, 1, 2, 3] false "loc".toList 0) :=
  multiTokenLookup_nonoverlapping [] newYorkTrie "New York City Hall".toList
    [ { text := "New".toList, start_char := 0, end_char := 3 },
      { text := "York".toList, start_char := 4, end_char := 8 },
      { text := "City".toList, start_char := 9, end_char := 13 },
      { text := "Hall".toList, start_char := 14, end_char := 18 } ]
    [0, 1, 2, 3] "loc".toList 0 (by decide) (by decide)

theorem chainedFrom_mono (l : List Annotation) (n p q : Nat) (hqp : q ≤ p)
    (hch : ChainedFrom n p l) : ChainedFrom n q l := by
  cases l with
  | nil => trivial
  | cons a rest =>
    simp only [ChainedFrom] at hch ⊢
    obtain ⟨h1, h2, h3, h4⟩ := hch
    exact ⟨Nat.le_trans hqp h1, h2, h3, h4⟩

theorem renderFrom_take (repl : Annotation → Chars) (text : Chars)
    (l : List Annotation) (pos k : Nat) (hch : ChainedFrom text.length pos l)
    (hpk : pos ≤ k)
    (hhead : ∀ b, l.head? = some b → k ≤ b.start_char) :
    (renderFrom repl text pos l).take (k - pos) = (text.drop pos).take (k - pos) := by
  cases l with
  | nil => rfl
  | cons a rest =>
    simp only [ChainedFrom] at hch
    obtain ⟨h1, h2, h3, _⟩ := hch
    have hk : k ≤ a.start_char := hhead a rfl
    simp only [renderFrom]
    have hchunklen :
        ((text.drop pos).take (a.start_char - pos)).length = a.start_char - pos := by
      rw [List.length_take, List.length_drop]
      exact Nat.min_eq_left (by omega)
    rw [List.append_assoc,
      List.take_append_of_le_length (by rw [hchunklen]; omega), List.take_take,
      Nat.min_eq_left (by omega)]

theorem renderFrom_drop (repl : Annotation → Chars) (text : Chars)
    (l : List Annotation) (pos k : Nat) (hch : ChainedFrom text.length pos l)
    (hpk : pos ≤ k)
    (hhead : ∀ b, l.head? = some b → k ≤ b.start_char) :
    (renderFrom repl text pos l).drop (k - pos) = renderFrom repl text k l := by
  cases l with
  | nil =>
    simp only [renderFrom]
    rw [List.drop_drop]
    congr 1
    omega
  | cons a rest =>
    simp only [ChainedFrom] at hch
    obtain ⟨h1, h2, h3, _⟩ := hch
    have hk : k ≤ a.start_char := hhead a rfl
    simp only [renderFrom]
    have hchunklen :
        ((text.drop pos).take (a.start_char - pos)).length = a.start_char - pos := by
      rw [List.length_take, List.length_drop]
      exact Nat.min_eq_left (by omega)
    rw [List.append_assoc,
      List.drop_append_of_le_length (by rw [hchunklen]; omega),
      List.drop_take, List.drop_drop]
    have e1 : a.start_char - pos - (k - pos) = a.start_char - k := by omega
    have e2 : pos + (k - pos) = k := by omega
    rw [e1, e2, List.append_assoc]

theorem chainedFrom_of_sorted (n : Nat) :
    ∀ (l : List Annotation) (pos : Nat),
      List.Pairwise (fun a b => a.end_char ≤ b.end_char) l →
      List.Pairwise SpansDisjoint l →
      (∀ a ∈ l, a.start_char < a.end_char ∧ a.end_char ≤ n) →
      (∀ a ∈ l, pos ≤ a.start_char) →
      ChainedFrom n pos l := by
  intro l
  induction l with
  | nil => intro pos _ _ _ _; trivial
  | cons a rest ih =>
    intro pos hend hdis hval hpos
    simp only [ChainedFrom]
    obtain ⟨hv1, hv2⟩ := hval a (List.mem_cons_self a rest)
    refine ⟨hpos a (List.mem_cons_self a rest), Nat.le_of_lt hv1, hv2, ?_⟩
    apply ih
    · exact (List.pairwise_cons.mp hend).2
    · exact (List.pairwise_cons.mp hdis).2
    · exact fun b hb => hval b (List.mem_cons_of_mem a hb)
    · intro b hb
      have he : a.end_char ≤ b.end_char := (List.pairwise_cons.mp hend).1 b hb
      rcases (List.pairwise_cons.mp hdis).1 b hb with h | h
      · exact h
      · omega

theorem foldl_splice_eq_renderFrom (repl : Annotation → Chars) :
    ∀ (l : List Annotation) (text : Chars), ChainedFrom text.length 0 l →
      l.reverse.foldl
          (fun t a => t.take a.start_char ++ repl a ++ t.drop a.end_char) text
        = renderFrom repl text 0 l := by
  intro l
  induction l with
  | nil =>
    intro text _
    simp [renderFrom]
  | cons a rest ih =>
    intro text hch
    simp only [ChainedFrom] at hch
    obtain ⟨h1, h2, h3, h4⟩ := hch
    rw [List.reverse_cons, List.foldl_append]
    simp only [List.foldl_cons, List.foldl_nil]
    have hchrest : ChainedFrom text.length 0 rest :=
      chainedFrom_mono rest text.length a.end_char 0 (Nat.zero_le _) h4
    rw [ih text hchrest]
    have hhead : ∀ b, rest.head? = some b → a.end_char ≤ b.start_char := by
      intro b hb
      cases rest with
      | nil => cases hb
      | cons c cs =>
        cases hb
        simp only [ChainedFrom] at h4
        exact h4.1
    have htake := renderFrom_take repl text rest 0 a.start_char hchrest
      (Nat.zero_le _) (fun b hb => Nat.le_trans h2 (hhead b hb))
    have hdrop := renderFrom_drop repl text rest 0 a.end_char hchrest
      (Nat.zero_le _) hhead
    rw [Nat.sub_zero, List.drop_zero] at htake
    rw [Nat.sub_zero] at hdrop
    rw [htake, hdrop]
    simp only [renderFrom, List.drop_zero, Nat.sub_zero]

/-- C4: on every overlap-free annotation set with well-formed in-document
spans, the substitution step of `SimpleRedactor` (processing annotations by
descending `end_char` and splicing each replacement at `[start_char,
end_char)`) produces exactly the left-to-right rendering of the document: the
annotations in some left-to-right arrangement, each span replaced by its
replacement string and every character outside the spans kept unchanged and in
order. -/
theorem replaceAnnotations_renders (text : Chars) (annos : List Annotation)
    (repl : Annotation → Chars)
    (hvalid : ∀ a ∈ annos, a.start_char < a.end_char ∧ a.end_char ≤ text.length)
    (hdisj : List.Pairwise SpansDisjoint annos) :
    ∃ l, l.Perm annos ∧ ChainedFrom text.length 0 l ∧
      SimpleRedactor.replace_annotations_in_text text annos repl
        = renderFrom repl text 0 l := by
  haveI htotal : IsTotal Annotation (fun a b => b.end_char ≤ a.end_char) :=
    ⟨fun a b => Nat.le_total b.end_char a.end_char⟩
  haveI htrans : IsTrans Annotation (fun a b => b.end_char ≤ a.end_char) :=
    ⟨fun a b c hab hbc => Nat.le_trans hbc hab⟩
  have hperm :
      ((annos.insertionSort (fun a b => b.end_char ≤ a.end_char)).reverse).Perm annos :=
    (List.reverse_perm _).trans (List.perm_insertionSort _ annos)
  have hend : List.Pairwise (fun a b => a.end_char ≤ b.end_char)
      (annos.insertionSort (fun a b => b.end_char ≤ a.end_char)).reverse :=
    List.pairwise_reverse.mpr (List.sorted_insertionSort _ annos)
  have hch : ChainedFrom text.length 0
      (annos.insertionSort (fun a b => b.end_char ≤ a.end_char)).reverse := by
    apply chainedFrom_of_sorted text.length _ 0 hend
    · exact (List.Perm.pairwise_iff (fun h => h.symm) hperm).mpr hdisj
    · exact fun a ha => hvalid a (hperm.mem_iff.mp ha)
    · exact fun a _ => Nat.zero_le _
  refine ⟨(annos.insertionSort (fun a b => b.end_char ≤ a.end_char)).reverse,
    hperm, hch, ?_⟩
  have h := foldl_splice_eq_renderFrom repl
    (annos.insertionSort (fun a b => b.end_char ≤ a.end_char)).reverse text hch
  rw [List.reverse_reverse] at h
  exact h

/-- Witness for C4 on the document "John met Jane." with two person
annotations and a constant replacement function. -/
theorem replaceAnnotations_renders_witness :
    ∃ l, l.Perm
        [ { text := "John".toList, start_char := 0, end_char := 4,
            tag := "person".toList, priority := 0 },
          { text := "Jane".toList, start_char := 9, end_char := 13,
            tag := "person".toList, priority := 0 } ] ∧
      ChainedFrom ("John met Jane.".toList).length 0 l ∧
      SimpleRedactor.replace_annotations_in_text "John met Jane.".toList
          [ { text := "John".toList, start_char := 0, end_char := 4,
              tag := "person".toList, priority := 0 },
            { text := "Jane".toList, start_char := 9, end_char := 13,
              tag := "person".toList, priority := 0 } ]
          (fun _ => "#".toList)
        = renderFrom (fun _ => "#".toList) "John met Jane.".toList 0 l :=
  replaceAnnotations_renders "John met Jane.".toList
    [ { text := "John".toList, start_char := 0, end_char := 4,
        tag := "person".toList, priority := 0 },
      { text := "Jane".toList, start_char := 9, end_char := 13,
        tag := "person".toList, priority := 0 } ]
    (fun _ => "#".toList) (by decide) (by decide)

theorem annosFromShortest_sorted (annos : List Annotation) :
    List.Pairwise (fun a b => annoLen a ≤ annoLen b) (annosFromShortest annos) := by
  haveI : IsTotal Annotation (fun a b => annoLen a ≤ annoLen b) :=
    ⟨fun a b => Nat.le_total _ _⟩
  haveI : IsTrans Annotation (fun a b => annoLen a ≤ annoLen b) :=
    ⟨fun _ _ _ hab hbc => Nat.le_trans hab hbc⟩
  exact List.sorted_insertionSort _ annos

theorem annosFromShortest_perm (annos : List Annotation) :
    (annosFromShortest annos).Perm annos :=
  List.perm_insertionSort _ annos

/-- C7: in `annotate_doc`, at every boundary index all closing markers are
emitted before any opening marker; the annotations closed there are emitted in
ascending span-length order (shortest closed first) and the annotations opened
there in descending span-length order (shortest opened last, so the shortest
span nests innermost). -/
theorem annotate_doc_marker_order (debug : Bool) (text : Chars)
    (annos : List Annotation) (idx : Nat) :
    annotate_doc debug text annos
        = (chunksLoop debug text annos 0 (markupIndices annos)).flatten ∧
      ∃ ca oa,
        ca.Perm (annos.filter (fun a => decide (a.end_char = idx))) ∧
          oa.Perm (annos.filter (fun a => decide (a.start_char = idx))) ∧
          List.Pairwise (fun a b => annoLen a ≤ annoLen b) ca ∧
          List.Pairwise (fun a b => annoLen b ≤ annoLen a) oa ∧
          markersAt debug annos idx
            = ca.map (closeMarker debug) ++ oa.map (openMarker debug) := by
  refine ⟨rfl, endsAt annos idx, (startsAt annos idx).reverse, ?_, ?_, ?_, ?_, rfl⟩
  · exact (annosFromShortest_perm annos).filter _
  · exact (List.reverse_perm _).trans ((annosFromShortest_perm annos).filter _)
  · exact (annosFromShortest_sorted annos).sublist (List.filter_sublist _)
  · exact List.pairwise_reverse.mpr
      ((annosFromShortest_sorted annos).sublist (List.filter_sublist _))

theorem slice_append_drop (text : Chars) (a b : Nat) (hab : a ≤ b) :
    pySlice text a b ++ text.drop b = text.drop a := by
  unfold pySlice
  have h : text.drop b = (text.drop a).drop (b - a) := by
    rw [List.drop_drop]
    congr 1
    omega
  rw [h, List.take_append_drop]

theorem textPieces_flatten (text : Chars) :
    ∀ (idxs : List Nat) (last : Nat),
      List.Pairwise (fun a b => a ≤ b) idxs → (∀ i ∈ idxs, last ≤ i) →
      (textPieces text last idxs).flatten = text.drop last := by
  intro idxs
  induction idxs with
  | nil =>
    intro last _ _
    simp [textPieces]
  | cons idx rest ih =>
    intro last hsorted hlast
    simp only [textPieces, List.flatten_cons]
    rw [ih idx (List.pairwise_cons.mp hsorted).2 (List.pairwise_cons.mp hsorted).1]
    exact slice_append_drop text last idx (hlast idx (List.mem_cons_self idx rest))

theorem markupIndices_sorted (annos : List Annotation) :
    List.Pairwise (fun a b => a ≤ b) (markupIndices annos) := by
  haveI : IsTotal Nat (fun a b => a ≤ b) := ⟨Nat.le_total⟩
  haveI : IsTrans Nat (fun a b => a ≤ b) := ⟨fun _ _ _ => Nat.le_trans⟩
  exact List.sorted_insertionSort _ _

theorem chunksLoop_eq_interleave (debug : Bool) (text : Chars)
    (annos : List Annotation) :
    ∀ (idxs : List Nat) (last : Nat),
      (chunksLoop debug text annos last idxs).flatten
        = interleaveChunks (textPieces text last idxs)
            (idxs.map (markersAt debug annos)) := by
  intro idxs
  induction idxs with
  | nil =>
    intro last
    simp [chunksLoop, textPieces, interleaveChunks]
  | cons idx rest ih =>
    intro last
    simp only [chunksLoop, textPieces, List.map_cons, interleaveChunks,
      List.flatten_append, List.flatten_cons]
    rw [ih idx, List.append_assoc]

/-- C8: the output of `annotate_doc` is the interleaving of the document's
text pieces with the marker runs at each boundary; concatenating the text
pieces alone gives back the document text exactly (so deleting the inserted
markers recovers the original); markers carry the upper-cased tag, and the
`xN` priority suffix appears exactly when debug mode is on and the priority is
non-zero. -/
theorem annotate_doc_recovers_text (debug : Bool) (text : Chars)
    (annos : List Annotation) :
    annotate_doc debug text annos
        = interleaveChunks (textPieces text 0 (markupIndices annos))
            ((markupIndices annos).map (markersAt debug annos)) ∧
      (textPieces text 0 (markupIndices annos)).flatten = text ∧
      (∀ a : Annotation, prioSuffix false a = []) ∧
      (∀ a : Annotation, a.priority ≠ 0 →
        prioSuffix true a = 'x' :: intChars a.priority) ∧
      (∀ a : Annotation, a.priority = 0 → prioSuffix true a = []) ∧
      (∀ a : Annotation, openMarker debug a
          = ['<'] ++ charsUpper a.tag ++ prioSuffix debug a ++ ['>']) ∧
      ∀ a : Annotation, closeMarker debug a
          = ['<', '/'] ++ charsUpper a.tag ++ prioSuffix debug a ++ ['>'] := by
  refine ⟨?_, ?_, ?_, ?_, ?_, fun _ => rfl, fun _ => rfl⟩
  · exact chunksLoop_eq_interleave debug text annos (markupIndices annos) 0
  · rw [textPieces_flatten text (markupIndices annos) 0 (markupIndices_sorted annos)
      (fun i _ => Nat.zero_le i), List.drop_zero]
  · intro a
    simp [prioSuffix]
  · intro a h
    simp [prioSuffix, h]
  · intro a h
    simp [prioSuffix, h]
